import Mathlib

/-!
Verification of the hybrid PDF search application (`src/app.py`).

The application is a thin orchestration layer: it extracts text from PDFs,
chunks it with a recursive character splitter (chunk_size 1000, overlap 200),
builds a BM25 lexical index and an embedding (FAISS) index over the chunks,
and answers queries through a weighted ensemble of the two rankings
(weights 0.3 lexical / 0.7 semantic).  The splitter, the BM25 retriever and
the ensemble ranker live in an external library, so their behaviour is
modelled from the specification; the control flow, the cache discipline of
`initialize_retrievers` (Streamlit `st.cache_resource`, whose hash key
excludes parameters whose name starts with an underscore, such as `_docs`)
and the error handling around PDF extraction are translated from the source.

Python strings are embedded as `List Char`, fallible operations as `Except`,
and the external embedding provider as an explicit function argument.
-/

/-- Text is modelled as a list of characters (a Python `str`). -/
abbrev Doc := List Char

/-- The last `n` characters of a text (Python `s[-n:]`). -/
def suffixTake (n : ℕ) (l : Doc) : Doc := l.drop (l.length - n)

/-- Index of the first occurrence of `sep` as a contiguous substring of
`text`, if any (the search starts at every position of `text` in turn). -/
def findIdxOfInfix (sep : Doc) : Doc → Option ℕ
  | [] => none
  | c :: rest =>
    if sep.isPrefixOf (c :: rest) then some 0
    else (findIdxOfInfix sep rest).map (· + 1)

/-- Modelled from the spec (§4.1, the library text splitter is not part of
the repository): split `text` at every occurrence of the separator `sep`,
keeping the separator attached to the end of the piece it terminates, so
that the pieces concatenate back to `text`.  `fuel` bounds the number of
splits; every occurrence consumes at least one character, so `text.length`
is always enough fuel. -/
def splitKeepFuel (sep : Doc) : ℕ → Doc → List Doc
  | 0, text => [text]
  | fuel + 1, text =>
    match findIdxOfInfix sep text with
    | none => [text]
    | some i => text.take (i + sep.length) :: splitKeepFuel sep fuel (text.drop (i + sep.length))

/-- Split `text` on `sep`, separator kept at the end of each piece. -/
def splitKeep (sep text : Doc) : List Doc :=
  if sep.length = 0 then [text] else splitKeepFuel sep text.length text

/-- Modelled from the spec (§4.1): hard character-boundary split into pieces
of at most `maxSize` characters, the last-resort splitting strategy.
`fuel` bounds the number of splits; `text.length` is always enough. -/
def hardSplitFuel (maxSize : ℕ) : ℕ → Doc → List Doc
  | 0, text => [text]
  | fuel + 1, text =>
    if text.length ≤ maxSize then [text]
    else text.take maxSize :: hardSplitFuel maxSize fuel (text.drop maxSize)

/-- Hard character-boundary split into pieces of at most `maxSize`. -/
def hardSplit (maxSize : ℕ) (text : Doc) : List Doc :=
  hardSplitFuel maxSize text.length text

/-- The separator preference order of `process_pdf_text` in `src/app.py`:
paragraph break, line break, sentence-ending period plus space, plain
space (the empty separator of the source is the hard split fallback). -/
def separators : List Doc := [['\n', '\n'], ['\n'], ['.', ' '], [' ']]

/-- All pieces fit within `maxSize` characters. -/
def piecesOk (maxSize : ℕ) (ps : List Doc) : Bool :=
  ps.all (fun p => decide (p.length ≤ maxSize))

/-- Modelled from the spec (§4.1): prefer the earliest separator in the
preference list whose split yields pieces all within `maxSize`; fall back
to the hard character-boundary split. -/
def choosePieces (maxSize : ℕ) (text : Doc) : List Doc :=
  match separators.find? (fun sep => piecesOk maxSize (splitKeep sep text)) with
  | some sep => splitKeep sep text
  | none => hardSplit maxSize text

/-- Modelled from the spec (§4.1): re-merge adjacent small pieces up to
`maxSize`, inserting up to `overlap` characters of trailing context from
the previous chunk into the start of the next chunk at each split
boundary.  The inserted context is shortened when the `maxSize` budget of
the new chunk would otherwise be exceeded by its first piece. -/
def mergeAux (maxSize overlap : ℕ) (cur : Doc) : List Doc → List Doc
  | [] => [cur]
  | p :: ps =>
    if cur.length + p.length ≤ maxSize then
      mergeAux maxSize overlap (cur ++ p) ps
    else
      cur :: mergeAux maxSize overlap
        (suffixTake (min overlap (min cur.length (maxSize - p.length))) cur ++ p) ps

/-- Modelled from the spec (§4.1): the chunker.  Empty or whitespace-only
input yields no chunks; input within `maxSize` yields a single chunk; longer
input is split by the preferred separator and re-merged with overlap. -/
def chunkText (maxSize overlap : ℕ) (text : Doc) : List Doc :=
  if text.all (fun ch => ch.isWhitespace) then []
  else if text.length ≤ maxSize then [text]
  else
    match choosePieces maxSize text with
    | [] => []
    | p :: ps => mergeAux maxSize overlap p ps

/-- `process_pdf_text` from `src/app.py`: chunk extracted text with
`chunk_size=1000` and `chunk_overlap=200`. -/
def process_pdf_text (text : Doc) : List Doc := chunkText 1000 200 text

/-- Failure of the PDF parsing and page-extraction path of
`extract_text_from_pdf` (temporary file handling and `PyPDF2`). -/
inductive PdfError where
  | parseFailure (msg : String)
deriving DecidableEq

/-- `extract_text_from_pdf` from `src/app.py`.  The PDF byte stream is an
external input, so the page-extraction step is passed in as its outcome:
either the list of per-page texts or a raised exception.  The source wraps
the whole body in `try/except` and returns the empty list on any exception
(after showing an error banner); pages joined by a blank line are chunked
only when the accumulated text has non-whitespace content, and otherwise
the empty list is returned as well. -/
def extract_text_from_pdf (pages : Except PdfError (List Doc)) : List Doc :=
  match pages with
  | .error _ => []
  | .ok ps =>
    let fullText := ps.foldr (fun page acc => page ++ ['\n', '\n'] ++ acc) []
    if fullText.any (fun ch => !ch.isWhitespace) then process_pdf_text fullText
    else []

/-- Modelled from the spec (§4.2, the BM25 library is not part of the
repository): tokenization lowercases and splits on non-alphanumeric
boundaries.  `fuel` bounds the number of tokens; every token consumes at
least one character, so `text.length` is always enough fuel. -/
def tokenizeFuel : ℕ → Doc → List (List Char)
  | 0, _ => []
  | fuel + 1, text =>
    match text.dropWhile (fun c => !c.isAlphanum) with
    | [] => []
    | c :: rest =>
      ((c :: rest).takeWhile Char.isAlphanum).map Char.toLower ::
        tokenizeFuel fuel ((c :: rest).dropWhile Char.isAlphanum)

/-- Lowercase tokens of a text, split on non-alphanumeric boundaries. -/
def tokenize (text : Doc) : List (List Char) := tokenizeFuel text.length text

/-- Number of occurrences of term `t` among the tokens of chunk `c`. -/
def termFreq (t : List Char) (c : Doc) : ℕ := (tokenize c).count t

/-- Number of corpus chunks containing term `t`. -/
def docFreq (t : List Char) (corpus : List Doc) : ℕ :=
  (corpus.filter (fun d => decide (t ∈ tokenize d))).length

/-- Token length of a chunk. -/
def docLen (c : Doc) : ℕ := (tokenize c).length

/-- Average token length of the corpus chunks. -/
def avgDocLen (corpus : List Doc) : ℚ :=
  (corpus.map (fun c => (docLen c : ℚ))).sum / corpus.length

/-- BM25 term-frequency saturation constant (spec default 1.5). -/
def bm25K1 : ℚ := 3 / 2

/-- BM25 length-normalization strength (spec default 0.75). -/
def bm25B : ℚ := 3 / 4

/-- Modelled from the spec (§4.2): the standard BM25 score of chunk `c`
against `query` — a sum over the query's tokens of the inverse-document-
frequency weight times the saturated, length-normalized term frequency.
The logarithmic idf weight is kept abstract as the parameter
`idf (corpus size) (document frequency)`, since the real-valued logarithm
has no exact rational form; every property claimed of the retriever holds
for an arbitrary idf. -/
def bm25Score (idf : ℕ → ℕ → ℚ) (corpus : List Doc) (query c : Doc) : ℚ :=
  ((tokenize query).map (fun t =>
    let f : ℚ := termFreq t c
    idf corpus.length (docFreq t corpus) * (f * (bm25K1 + 1)) /
      (f + bm25K1 * (1 - bm25B + bm25B * docLen c / avgDocLen corpus)))).sum

/-- BM25 score of the corpus chunk with original index `i`. -/
def bm25ScoreAt (idf : ℕ → ℕ → ℚ) (corpus : List Doc) (query : Doc) (i : ℕ) : ℚ :=
  bm25Score idf corpus query (corpus.getD i [])

/-- Ranking order shared by both retrievers and the fusion step: score
descending, ties broken by the tier `t` ascending and finally by `u`
ascending. -/
def rankRel (s : α → ℚ) (t u : α → ℕ) (a b : α) : Prop :=
  s b < s a ∨ (s b = s a ∧ (t a < t b ∨ (t a = t b ∧ u a ≤ u b)))

instance (s : α → ℚ) (t u : α → ℕ) : DecidableRel (rankRel s t u) := fun a b =>
  decidable_of_iff
    (s b < s a ∨ (s b = s a ∧ (t a < t b ∨ (t a = t b ∧ u a ≤ u b)))) Iff.rfl

instance (s : α → ℚ) (t u : α → ℕ) : IsTotal α (rankRel s t u) where
  total a b := by
    unfold rankRel
    rcases lt_trichotomy (s a) (s b) with h | h | h
    · exact Or.inr (Or.inl h)
    · rcases Nat.lt_trichotomy (t a) (t b) with ht | ht | ht
      · exact Or.inl (Or.inr ⟨h.symm, Or.inl ht⟩)
      · rcases Nat.le_total (u a) (u b) with hu | hu
        · exact Or.inl (Or.inr ⟨h.symm, Or.inr ⟨ht, hu⟩⟩)
        · exact Or.inr (Or.inr ⟨h, Or.inr ⟨ht.symm, hu⟩⟩)
      · exact Or.inr (Or.inr ⟨h, Or.inl ht⟩)
    · exact Or.inl (Or.inl h)

instance (s : α → ℚ) (t u : α → ℕ) : IsTrans α (rankRel s t u) where
  trans a b c hab hbc := by
    unfold rankRel at hab hbc ⊢
    rcases hab with hab | ⟨hab, hab2⟩
    · rcases hbc with hbc | ⟨hbc, _⟩
      · exact Or.inl (hbc.trans hab)
      · exact Or.inl (hbc ▸ hab)
    · rcases hbc with hbc | ⟨hbc, hbc2⟩
      · exact Or.inl (hab ▸ hbc)
      · exact Or.inr ⟨hbc.trans hab, by omega⟩

/-- The BM25 retriever ranking relation: score descending, ties broken by
original chunk order (spec §4.2). -/
def bm25Rel (idf : ℕ → ℕ → ℚ) (corpus : List Doc) (query : Doc) : ℕ → ℕ → Prop :=
  rankRel (bm25ScoreAt idf corpus query) id id

instance (idf : ℕ → ℕ → ℚ) (corpus : List Doc) (query : Doc) :
    DecidableRel (bm25Rel idf corpus query) := fun a b =>
  inferInstanceAs (Decidable (rankRel (bm25ScoreAt idf corpus query) id id a b))

instance (idf : ℕ → ℕ → ℚ) (corpus : List Doc) (query : Doc) :
    IsTotal ℕ (bm25Rel idf corpus query) :=
  inferInstanceAs (IsTotal ℕ (rankRel (bm25ScoreAt idf corpus query) id id))

instance (idf : ℕ → ℕ → ℚ) (corpus : List Doc) (query : Doc) :
    IsTrans ℕ (bm25Rel idf corpus query) :=
  inferInstanceAs (IsTrans ℕ (rankRel (bm25ScoreAt idf corpus query) id id))

/-- Modelled from the spec (§4.2, the BM25 retriever library is not part of
the repository): rank all chunks by BM25 score descending with ties broken
by original chunk order, drop the chunks scoring zero against the query,
and return the first `k` chunk indices. -/
def bm25Query (idf : ℕ → ℕ → ℚ) (corpus : List Doc) (query : Doc) (k : ℕ) : List ℕ :=
  ((List.insertionSort (bm25Rel idf corpus query) (List.range corpus.length)).filter
    (fun i => decide (bm25ScoreAt idf corpus query i ≠ 0))).take k

/-- `bm25_retriever.k = 3` in `src/app.py`. -/
def bm25DefaultK : ℕ := 3

/-- `search_kwargs={"k": 3}` of the FAISS retriever in `src/app.py`. -/
def faissDefaultK : ℕ := 3

/-- Modelled from the spec (§4.4): reciprocal-rank normalization of a
ranked list — `1 / (rank + 1)` for a listed chunk (ranks counted from 0),
`0` for a chunk absent from the list. -/
def rrfScore (l : List ℕ) (c : ℕ) : ℚ :=
  if c ∈ l then 1 / ((l.indexOf c : ℚ) + 1) else 0

/-- Modelled from the spec (§4.4): the fused score
`lexicalWeight * normScore_lexical + semanticWeight * normScore_semantic`. -/
def finalScore (w : ℚ × ℚ) (lexL semL : List ℕ) (c : ℕ) : ℚ :=
  w.1 * rrfScore lexL c + w.2 * rrfScore semL c

/-- Rank of `c` within `l`, or `bound` when `c` is not listed. -/
def rankWithin (l : List ℕ) (bound : ℕ) (c : ℕ) : ℕ :=
  if c ∈ l then l.indexOf c else bound

/-- The best (smallest) rank either underlying list assigns to `c`, used as
the first tie-break tier of the fusion (spec §4.4). -/
def bestRank (lexL semL : List ℕ) (c : ℕ) : ℕ :=
  min (rankWithin lexL (lexL.length + semL.length) c)
    (rankWithin semL (lexL.length + semL.length) c)

/-- Fusion ordering: final score descending, ties broken first by the best
underlying rank, then by original chunk order (spec §4.4). -/
def fuseRel (w : ℚ × ℚ) (lexL semL : List ℕ) : ℕ → ℕ → Prop :=
  rankRel (finalScore w lexL semL) (bestRank lexL semL) id

instance (w : ℚ × ℚ) (lexL semL : List ℕ) : DecidableRel (fuseRel w lexL semL) := fun a b =>
  inferInstanceAs (Decidable (rankRel (finalScore w lexL semL) (bestRank lexL semL) id a b))

instance (w : ℚ × ℚ) (lexL semL : List ℕ) : IsTotal ℕ (fuseRel w lexL semL) :=
  inferInstanceAs (IsTotal ℕ (rankRel (finalScore w lexL semL) (bestRank lexL semL) id))

instance (w : ℚ × ℚ) (lexL semL : List ℕ) : IsTrans ℕ (fuseRel w lexL semL) :=
  inferInstanceAs (IsTrans ℕ (rankRel (finalScore w lexL semL) (bestRank lexL semL) id))

/-- The union of the two ranked lists, lexical candidates first, without
duplicates. -/
def fuseCandidates (lexL semL : List ℕ) : List ℕ :=
  lexL ++ semL.filter (fun c => decide (c ∉ lexL))

/-- Modelled from the spec (§4.4, the ensemble retriever library is not
part of the repository): score every candidate chunk by the weighted sum of
its reciprocal-rank scores, sort by final score descending (ties by best
underlying rank, then original chunk order) and return the first `k`
chunks with their fused scores. -/
def fuseRank (w : ℚ × ℚ) (lexL semL : List ℕ) (k : ℕ) : List (ℕ × ℚ) :=
  ((List.insertionSort (fuseRel w lexL semL) (fuseCandidates lexL semL)).take k).map
    (fun c => (c, finalScore w lexL semL c))

/-- `weights=[0.3, 0.7]` of the `EnsembleRetriever` in `src/app.py`. -/
def ensembleWeights : ℚ × ℚ := (3 / 10, 7 / 10)

/-- The two search indexes built by `initialize_retrievers` in
`src/app.py`: the BM25 retriever keeps the chunk corpus, the FAISS store
keeps one embedding vector per chunk, produced with the given API key. -/
structure Retrievers where
  corpus : List Doc
  apiKey : String
  vectors : List (List ℚ)
deriving DecidableEq

/-- Failure of the external embedding provider (auth, quota, network). -/
inductive EmbedError where
  | providerFailure (msg : String)
deriving DecidableEq

/-- The body of `initialize_retrievers` in `src/app.py`: build the BM25
index over the chunks and embed every chunk through the provider
(`FAISS.from_texts`).  The provider call is the argument `embed`; when it
raises, the whole build raises and no retriever value exists. -/
def initialize_retrievers (embed : String → List Doc → Except EmbedError (List (List ℚ)))
    (docs : List Doc) (apiKey : String) : Except EmbedError Retrievers :=
  match embed apiKey docs with
  | .error e => .error e
  | .ok vecs => .ok ⟨docs, apiKey, vecs⟩

/-- The `st.cache_resource` store: built retrievers memoized by hash key. -/
abbrev Cache := List (String × Retrievers)

/-- The cache key of `initialize_retrievers(_docs, api_key)` under
`st.cache_resource`: Streamlit excludes parameters whose name starts with
an underscore from the hash key, so only `api_key` is keyed and the chunk
corpus `_docs` is ignored. -/
def cacheKey (_docs : List Doc) (apiKey : String) : String := apiKey

/-- `initialize_retrievers` as called through `st.cache_resource`: a cache
hit returns the stored retrievers and performs no embedding call; a miss
builds, stores the result under the key and performs one (batched)
embedding-provider call; a raised provider failure propagates and nothing
is stored.  The last component counts the embedding-provider calls the
invocation performed. -/
def cached_initialize_retrievers
    (embed : String → List Doc → Except EmbedError (List (List ℚ)))
    (cache : Cache) (docs : List Doc) (apiKey : String) :
    Except EmbedError (Retrievers × Cache × ℕ) :=
  match cache.lookup (cacheKey docs apiKey) with
  | some r => .ok (r, cache, 0)
  | none =>
    match initialize_retrievers embed docs apiKey with
    | .error e => .error e
    | .ok r => .ok (r, (cacheKey docs apiKey, r) :: cache, 1)

/-- Failures the script surfaces before showing search results: the
empty-corpus guard (`st.stop` at line 109) and a failed index build
(`st.stop` in the `except` branch at line 140). -/
inductive AppError where
  | emptyCorpus
  | initFailed (e : EmbedError)
deriving DecidableEq

/-- The three result columns of the search interface of `src/app.py`. -/
structure SearchResults where
  bm25Results : List ℕ
  semanticResults : List ℕ
  hybridResults : List (ℕ × ℚ)
deriving DecidableEq

/-- The search interface of `src/app.py` (lines 146-170): the BM25 column,
the semantic column (query-time FAISS search is an external capability,
passed as `semRank`) and the hybrid column fusing the two with the
ensemble weights.  `k` is the requested result count of the fused
ranking. -/
def search_query (idf : ℕ → ℕ → ℚ) (semRank : Retrievers → Doc → List ℕ)
    (r : Retrievers) (query : Doc) (k : ℕ) : SearchResults :=
  let lexL := bm25Query idf r.corpus query bm25DefaultK
  let semL := (semRank r query).take faissDefaultK
  { bm25Results := lexL
    semanticResults := semL
    hybridResults := fuseRank ensembleWeights lexL semL k }

/-- The script flow around a search of `src/app.py`: stop with the
empty-corpus message when no documents are processed (lines 107-109),
initialize (or reuse) the retrievers and stop on a build failure
(lines 133-140), then answer the query (lines 146-170).  Returns the
outcome together with the cache state after the call. -/
def run_search (idf : ℕ → ℕ → ℚ) (semRank : Retrievers → Doc → List ℕ)
    (embed : String → List Doc → Except EmbedError (List (List ℚ)))
    (cache : Cache) (docs : List Doc) (apiKey : String) (query : Doc) (k : ℕ) :
    Except AppError SearchResults × Cache :=
  if docs.isEmpty then (.error .emptyCorpus, cache)
  else
    match cached_initialize_retrievers embed cache docs apiKey with
    | .error e => (.error (.initFailed e), cache)
    | .ok (r, cache2, _) => (.ok (search_query idf semRank r query k), cache2)

/-- The overlap of two adjacent chunks: some suffix of the earlier chunk of
length `m ≤ overlap` opens the later chunk, where `m` falls short of the
full `overlap` only when the earlier chunk is shorter than `overlap` or
when the later chunk is filled to the `maxSize` bound. -/
def overlapRel (maxSize overlap : ℕ) (c₁ c₂ : Doc) : Prop :=
  ∃ m, m ≤ overlap ∧ (suffixTake m c₁).isPrefixOf c₂ = true ∧
    (m = overlap ∨ m = c₁.length ∨ maxSize ≤ c₂.length)

/-- Concrete chunker input: four space-separated runs of 100 letters. -/
def c8Text : Doc :=
  List.replicate 100 'a' ++ [' '] ++ List.replicate 100 'b' ++ [' '] ++
    List.replicate 100 'c' ++ [' '] ++ List.replicate 100 'd'

/-- An embedding-provider stub that always succeeds. -/
def embedOk : String → List Doc → Except EmbedError (List (List ℚ)) :=
  fun _ ds => .ok (ds.map (fun _ => [0]))

/-- An embedding-provider stub that always fails (for instance, an invalid
API key). -/
def embedFail : String → List Doc → Except EmbedError (List (List ℚ)) :=
  fun _ _ => .error (.providerFailure "auth")

/-- A first concrete corpus chunk. -/
def c2DocA : Doc := ['a', 'l', 'p', 'h', 'a']

/-- A second, different concrete corpus chunk. -/
def c2DocB : Doc := ['b', 'e', 't', 'a']

/-- The cache contents after building the corpus `[c2DocA]` with the stub
provider under the key `"secret-key"`. -/
def c2Cache : Cache := [("secret-key", ⟨[c2DocA], "secret-key", [[0]]⟩)]

/-! ### Chunker lemmas -/

theorem suffixTake_length (n : ℕ) (l : Doc) :
    (suffixTake n l).length = l.length - (l.length - n) := by
  simp [suffixTake]

theorem hardSplitFuel_length_le (maxSize : ℕ) (hmax : 1 ≤ maxSize) :
    ∀ (fuel : ℕ) (text : Doc), text.length ≤ fuel + maxSize →
      ∀ p ∈ hardSplitFuel maxSize fuel text, p.length ≤ maxSize := by
  intro fuel
  induction fuel with
  | zero =>
    intro text hlen p hp
    simp only [hardSplitFuel, List.mem_singleton] at hp
    subst hp
    omega
  | succ fuel ih =>
    intro text hlen p hp
    simp only [hardSplitFuel] at hp
    split at hp
    · simp only [List.mem_singleton] at hp
      subst hp
      omega
    · rcases List.mem_cons.1 hp with hp | hp
      · subst hp
        simp only [List.length_take]
        omega
      · exact ih (text.drop maxSize) (by simp [List.length_drop]; omega) p hp

theorem choosePieces_length_le (maxSize : ℕ) (text : Doc) (hmax : 1 ≤ maxSize) :
    ∀ p ∈ choosePieces maxSize text, p.length ≤ maxSize := by
  intro p hp
  unfold choosePieces at hp
  split at hp
  case h_1 sep hfind =>
    have hok := List.find?_some hfind
    unfold piecesOk at hok
    rw [List.all_eq_true] at hok
    exact of_decide_eq_true (hok p hp)
  case h_2 =>
    exact hardSplitFuel_length_le maxSize hmax text.length text (by omega) p hp

theorem mergeAux_length_le (maxSize overlap : ℕ) :
    ∀ (ps : List Doc) (cur : Doc), cur.length ≤ maxSize →
      (∀ p ∈ ps, p.length ≤ maxSize) →
      ∀ c ∈ mergeAux maxSize overlap cur ps, c.length ≤ maxSize := by
  intro ps
  induction ps with
  | nil =>
    intro cur hcur _ c hc
    simp only [mergeAux, List.mem_singleton] at hc
    subst hc
    exact hcur
  | cons p ps ih =>
    intro cur hcur hps c hc
    have hp : p.length ≤ maxSize := hps p (List.mem_cons_self p ps)
    have hps' : ∀ q ∈ ps, q.length ≤ maxSize := fun q hq => hps q (List.mem_cons_of_mem p hq)
    simp only [mergeAux] at hc
    split at hc
    · exact ih (cur ++ p) (by simpa using by assumption) hps' c hc
    · rcases List.mem_cons.1 hc with hc | hc
      · subst hc
        exact hcur
      · refine ih _ ?_ hps' c hc
        have := suffixTake_length (min overlap (min cur.length (maxSize - p.length))) cur
        simp only [List.length_append]
        omega

theorem mergeAux_head_shape (maxSize overlap : ℕ) :
    ∀ (ps : List Doc) (cur : Doc),
      ∃ t rest, mergeAux maxSize overlap cur ps = (cur ++ t) :: rest := by
  intro ps
  induction ps with
  | nil =>
    intro cur
    exact ⟨[], [], by simp [mergeAux]⟩
  | cons p ps ih =>
    intro cur
    by_cases h : cur.length + p.length ≤ maxSize
    · obtain ⟨t, rest, ht⟩ := ih (cur ++ p)
      exact ⟨p ++ t, rest, by rw [mergeAux, if_pos h, ht, List.append_assoc]⟩
    · exact ⟨[], mergeAux maxSize overlap
        (suffixTake (min overlap (min cur.length (maxSize - p.length))) cur ++ p) ps,
        by rw [mergeAux, if_neg h, List.append_nil]⟩

theorem mergeAux_chain (maxSize overlap : ℕ) :
    ∀ (ps : List Doc) (cur : Doc), (∀ p ∈ ps, p.length ≤ maxSize) →
      List.Chain' (overlapRel maxSize overlap) (mergeAux maxSize overlap cur ps) := by
  intro ps
  induction ps with
  | nil =>
    intro cur _
    exact List.chain'_singleton cur
  | cons p ps ih =>
    intro cur hps
    have hp : p.length ≤ maxSize := hps p (List.mem_cons_self p ps)
    have hps' : ∀ q ∈ ps, q.length ≤ maxSize := fun q hq => hps q (List.mem_cons_of_mem p hq)
    rw [mergeAux]
    split
    · exact ih (cur ++ p) hps'
    · set m := min overlap (min cur.length (maxSize - p.length)) with hm
      obtain ⟨t, rest, ht⟩ := mergeAux_head_shape maxSize overlap ps (suffixTake m cur ++ p)
      rw [ht]
      refine List.chain'_cons.2 ⟨?_, ht ▸ ih _ hps'⟩
      refine ⟨m, by omega, ?_, ?_⟩
      · rw [List.isPrefixOf_iff_prefix, List.append_assoc]
        exact List.prefix_append _ _
      · have hst := suffixTake_length m cur
        have hlen : ((suffixTake m cur ++ p) ++ t).length =
            (cur.length - (cur.length - m)) + p.length + t.length := by
          simp only [List.length_append]
          omega
        have hcases : m = overlap ∨ m = cur.length ∨ m = maxSize - p.length := by omega
        rcases hcases with hc | hc | hc
        · exact Or.inl hc
        · exact Or.inr (Or.inl (by omega))
        · exact Or.inr (Or.inr (by omega))

/-! ### Claim theorems for the chunker and the extractor -/

/-- C7: every chunk produced by the chunker with maxSize 1000 has text
length at most 1000 characters.  The hard character-boundary fallback can
always split, so the bound holds without exception. -/
theorem chunk_length_bound (text : Doc) : ∀ c ∈ process_pdf_text text, c.length ≤ 1000 := by
  intro c hc
  unfold process_pdf_text chunkText at hc
  split at hc
  · simp at hc
  · split at hc
    · simp only [List.mem_singleton] at hc
      subst hc
      omega
    · rename_i hlong
      split at hc
      · simp at hc
      · rename_i p ps hpieces
        have hbound := choosePieces_length_le 1000 text (by omega)
        refine mergeAux_length_le 1000 200 ps p ?_ ?_ c hc
        · exact hbound p (hpieces ▸ List.mem_cons_self p ps)
        · exact fun q hq => hbound q (hpieces ▸ List.mem_cons_of_mem p hq)

/-- Witness for C7 at a concrete input. -/
theorem chunk_length_bound_witness :
    (['h'] ∈ process_pdf_text ['h']) ∧ (['h'] : Doc).length ≤ 1000 :=
  ⟨by decide, chunk_length_bound ['h'] ['h'] (by decide)⟩

set_option maxRecDepth 40000 in
/-- C8, counterexample to the claim as stated: on `c8Text` with maxSize 201
and overlap 200 the chunker produces four chunks, and the trailing 200
characters of the second chunk are not a prefix of the third (interior)
chunk — the inserted context is trimmed to fit the maxSize budget. -/
theorem chunk_overlap_counterexample :
    (let cs := chunkText 201 200 c8Text
     (cs.map List.length, (suffixTake 200 (cs.getD 1 [])).isPrefixOf (cs.getD 2 []))) =
      ([101, 201, 201, 201], false) := by
  decide

/-- C8, amended: every pair of adjacent chunks shares an overlap — a suffix
of the earlier chunk of some length `m ≤ overlap` opens the later chunk —
and `m` is the full `overlap` except when the earlier chunk is shorter
than `overlap` or the later chunk is filled to the `maxSize` bound. -/
theorem chunk_overlap_chain (maxSize overlap : ℕ) (text : Doc) (hmax : 1 ≤ maxSize) :
    List.Chain' (overlapRel maxSize overlap) (chunkText maxSize overlap text) := by
  unfold chunkText
  split
  · exact List.chain'_nil
  · split
    · exact List.chain'_singleton text
    · split
      · exact List.chain'_nil
      · rename_i p ps hpieces
        exact mergeAux_chain maxSize overlap ps p
          (fun q hq => choosePieces_length_le maxSize text hmax q
            (hpieces ▸ List.mem_cons_of_mem p hq))

/-- Witness for the amended C8 at a concrete input. -/
theorem chunk_overlap_chain_witness :
    1 ≤ 10 ∧ List.Chain' (overlapRel 10 3)
      (chunkText 10 3 ['h', 'e', 'l', 'l', 'o', ' ', 'w', 'o', 'r', 'l', 'd']) :=
  ⟨by decide, chunk_overlap_chain 10 3 _ (by decide)⟩

theorem foldr_pages_whitespace (pages : List Doc)
    (hws : ∀ p ∈ pages, ∀ ch ∈ p, ch.isWhitespace = true) :
    ∀ ch ∈ pages.foldr (fun page acc => page ++ ['\n', '\n'] ++ acc) [], ch.isWhitespace = true := by
  induction pages with
  | nil => simp
  | cons p ps ih =>
    intro ch hch
    rw [List.foldr_cons] at hch
    rcases List.mem_append.1 hch with hch | hch
    · rcases List.mem_append.1 hch with hch | hch
      · exact hws p (List.mem_cons_self p ps) ch hch
      · simp only [List.mem_cons, List.not_mem_nil, or_false, or_self] at hch
        subst hch
        decide
    · exact ih (fun q hq => hws q (List.mem_cons_of_mem p hq)) ch hch

/-- C10: a raised exception during PDF extraction yields the empty chunk
list, exactly as a PDF whose pages carry no extractable (non-whitespace)
text does — the two outcomes are indistinguishable at the return value. -/
theorem extract_failure_empty (e : PdfError) (pages : List Doc)
    (hws : ∀ p ∈ pages, ∀ ch ∈ p, ch.isWhitespace = true) :
    extract_text_from_pdf (.error e) = [] ∧
    extract_text_from_pdf (.ok pages) = [] ∧
    extract_text_from_pdf (.error e) = extract_text_from_pdf (.ok pages) := by
  have hok : extract_text_from_pdf (.ok pages) = [] := by
    have hall := foldr_pages_whitespace pages hws
    simp only [extract_text_from_pdf]
    rw [if_neg]
    simp only [List.any_eq_true, not_exists, not_and, Bool.not_eq_true]
    intro ch hch
    simp [hall ch hch]
  exact ⟨rfl, hok, hok.symm⟩

/-- Witness for C10 at a concrete input. -/
theorem extract_failure_empty_witness :
    extract_text_from_pdf (.error (.parseFailure "corrupt")) = [] ∧
    extract_text_from_pdf (.ok [[' ']]) = [] := by
  have h := extract_failure_empty (.parseFailure "corrupt") [[' ']] (by decide)
  exact ⟨h.1, h.2.1⟩

/-! ### Claim theorems for the cache, error handling and search flow -/

/-- C5: a search against an empty corpus stops with the empty-corpus
outcome — for no query does it return a (necessarily empty) result list. -/
theorem empty_corpus_error (idf : ℕ → ℕ → ℚ) (semRank : Retrievers → Doc → List ℕ)
    (embed : String → List Doc → Except EmbedError (List (List ℚ)))
    (cache : Cache) (apiKey : String) (query : Doc) (k : ℕ) :
    run_search idf semRank embed cache [] apiKey query k = (.error .emptyCorpus, cache) ∧
    ∀ res : SearchResults,
      (run_search idf semRank embed cache [] apiKey query k).1 ≠ .ok res := by
  refine ⟨rfl, ?_⟩
  intro res h
  simp [run_search] at h

/-- Witness for C5 at a concrete input. -/
theorem empty_corpus_error_witness :
    run_search (fun _ _ => 1) (fun _ _ => []) embedOk [] [] "key" ['q'] 3 =
      (.error .emptyCorpus, []) ∧
    (run_search (fun _ _ => 1) (fun _ _ => []) embedOk [] [] "key" ['q'] 3).1 ≠
      .ok ⟨[], [], []⟩ :=
  ⟨(empty_corpus_error (fun _ _ => 1) (fun _ _ => []) embedOk [] "key" ['q'] 3).1,
   (empty_corpus_error (fun _ _ => 1) (fun _ _ => []) embedOk [] "key" ['q'] 3).2 ⟨[], [], []⟩⟩

/-- C6: when the embedding provider fails during an (uncached) index build,
the whole search stops with the failure and its cause, and the cache is
left unchanged — no partially-built index becomes visible to queries. -/
theorem build_failure_atomic (idf : ℕ → ℕ → ℚ) (semRank : Retrievers → Doc → List ℕ)
    (embed : String → List Doc → Except EmbedError (List (List ℚ)))
    (cache : Cache) (docs : List Doc) (apiKey : String) (query : Doc) (k : ℕ)
    (e : EmbedError) (hne : docs ≠ [])
    (hmiss : cache.lookup (cacheKey docs apiKey) = none)
    (hfail : embed apiKey docs = .error e) :
    run_search idf semRank embed cache docs apiKey query k =
      (.error (.initFailed e), cache) := by
  have hde : docs.isEmpty = false := by
    cases docs with
    | nil => exact absurd rfl hne
    | cons d ds => rfl
  unfold run_search cached_initialize_retrievers initialize_retrievers
  rw [hde, hmiss, hfail]
  rfl

/-- Witness for C6 at a concrete input. -/
theorem build_failure_atomic_witness :
    ([] : Cache).lookup (cacheKey [c2DocA] "key") = none ∧
    embedFail "key" [c2DocA] = .error (.providerFailure "auth") ∧
    run_search (fun _ _ => 1) (fun _ _ => []) embedFail [] [c2DocA] "key" ['q'] 3 =
      (.error (.initFailed (.providerFailure "auth")), []) :=
  ⟨rfl, rfl,
   build_failure_atomic (fun _ _ => 1) (fun _ _ => []) embedFail [] [c2DocA] "key" ['q'] 3
     (.providerFailure "auth") (by decide) rfl rfl⟩

/-- C2: the `st.cache_resource` key of `initialize_retrievers` excludes the
underscore-prefixed `_docs` parameter, so it is derived from the API key
alone.  Building the corpus `[c2DocA]` and then calling with the different
corpus `[c2DocB]` under the same key is a cache hit: the stale retrievers
built from `[c2DocA]` are reused with no new embedding call, although the
corpus content changed. -/
theorem cache_reuses_stale_corpus :
    cached_initialize_retrievers embedOk [] [c2DocA] "secret-key" =
      .ok (⟨[c2DocA], "secret-key", [[0]]⟩, c2Cache, 1) ∧
    cached_initialize_retrievers embedOk c2Cache [c2DocB] "secret-key" =
      .ok (⟨[c2DocA], "secret-key", [[0]]⟩, c2Cache, 0) ∧
    c2DocA ≠ c2DocB := by
  refine ⟨rfl, ?_, by decide⟩
  rfl

/-- C9: the hybrid (fused) ranking returned for a query contains at most
the requested number `k` of results. -/
theorem hybrid_results_length_le (idf : ℕ → ℕ → ℚ) (semRank : Retrievers → Doc → List ℕ)
    (r : Retrievers) (query : Doc) (k : ℕ) :
    ((search_query idf semRank r query k).hybridResults).length ≤ k := by
  simp only [search_query, fuseRank, List.length_map, List.length_take]
  omega

/-! ### Ranking lemmas -/

theorem rankRel_le {s : α → ℚ} {t u : α → ℕ} {a b : α} (h : rankRel s t u a b) :
    s b ≤ s a := by
  rcases h with h | ⟨h, _⟩
  · exact le_of_lt h
  · exact le_of_eq h

theorem sorted_pos_split (s : ℕ → ℚ) :
    ∀ l : List ℕ, List.Pairwise (fun a b => s b ≤ s a) l →
      ∃ B, l = l.filter (fun c => decide (0 < s c)) ++ B ∧ ∀ b ∈ B, ¬ 0 < s b := by
  intro l
  induction l with
  | nil => exact fun _ => ⟨[], rfl, by simp⟩
  | cons a l ih =>
    intro hp
    rcases List.pairwise_cons.1 hp with ⟨ha, htail⟩
    by_cases hpos : 0 < s a
    · obtain ⟨B, hB, hBneg⟩ := ih htail
      refine ⟨B, ?_, hBneg⟩
      rw [List.filter_cons_of_pos (by simpa using hpos), List.cons_append]
      exact congrArg (a :: ·) hB
    · refine ⟨a :: l, ?_, ?_⟩
      · rw [List.filter_eq_nil_iff.2, List.nil_append]
        intro x hx
        rcases List.mem_cons.1 hx with rfl | hx
        · simpa using hpos
        · have : s x ≤ s a := ha x hx
          simp only [decide_eq_true_eq]
          intro h
          exact hpos (lt_of_lt_of_le h this)
      · intro b hb
        rcases List.mem_cons.1 hb with rfl | hb
        · exact hpos
        · exact fun h => hpos (lt_of_lt_of_le h (ha b hb))

theorem eq_of_perm_sorted_inj (s : ℕ → ℚ) :
    ∀ (l m : List ℕ), l.Perm m →
      List.Pairwise (fun a b => s b ≤ s a) l →
      List.Pairwise (fun a b => s b ≤ s a) m →
      (∀ a ∈ l, ∀ b ∈ l, s a = s b → a = b) → l = m := by
  intro l
  induction l with
  | nil => exact fun m hp _ _ _ => hp.nil_eq
  | cons a l ih =>
    intro m hp hsl hsm hinj
    cases m with
    | nil => exact absurd hp.symm.nil_eq (by simp)
    | cons b m =>
      have hab : a = b := by
        by_contra hne
        have haim : a ∈ b :: m := hp.subset (List.mem_cons_self a l)
        have ham : a ∈ m := by
          rcases List.mem_cons.1 haim with rfl | h
          · exact absurd rfl hne
          · exact h
        have hbil : b ∈ a :: l := hp.symm.subset (List.mem_cons_self b m)
        have hbl : b ∈ l := by
          rcases List.mem_cons.1 hbil with rfl | h
          · exact absurd rfl (fun hh => hne hh.symm)
          · exact h
        have h1 : s a ≤ s b := (List.pairwise_cons.1 hsm).1 a ham
        have h2 : s b ≤ s a := (List.pairwise_cons.1 hsl).1 b hbl
        exact hne (hinj a (List.mem_cons_self a l) b (List.mem_cons_of_mem a hbl)
          (le_antisymm h1 h2))
      subst hab
      have htails : l.Perm m := hp.cons_inv
      have := ih m htails (List.pairwise_cons.1 hsl).2 (List.pairwise_cons.1 hsm).2
        (fun x hx y hy => hinj x (List.mem_cons_of_mem a hx) y (List.mem_cons_of_mem a hy))
      rw [this]

theorem rrfScore_pos_iff (l : List ℕ) (c : ℕ) : 0 < rrfScore l c ↔ c ∈ l := by
  unfold rrfScore
  split
  · rename_i h
    simp only [h, iff_true]
    positivity
  · rename_i h
    simp [h]

theorem rrfScore_eq_zero {l : List ℕ} {c : ℕ} (h : c ∉ l) : rrfScore l c = 0 := by
  simp [rrfScore, h]

theorem rrfScore_get (l : List ℕ) (hl : l.Nodup) (i : ℕ) (hi : i < l.length) :
    rrfScore l (l.get ⟨i, hi⟩) = 1 / ((i : ℚ) + 1) := by
  have hmem : l.get ⟨i, hi⟩ ∈ l := List.get_mem l i hi
  have hidx : List.indexOf (l.get ⟨i, hi⟩) l = i := by
    simpa using List.indexOf_getElem hl i hi
  rw [rrfScore, if_pos hmem, hidx]

theorem reciprocal_rank_inj {i j : ℕ} (h : (1 : ℚ) / ((i : ℚ) + 1) = 1 / ((j : ℚ) + 1)) :
    i = j := by
  have hi : ((i : ℚ) + 1) ≠ 0 := by positivity
  have hj : ((j : ℚ) + 1) ≠ 0 := by positivity
  rw [div_eq_div_iff (by positivity) (by positivity)] at h
  have : (i : ℚ) = (j : ℚ) := by linarith
  exact_mod_cast this

theorem sorted_take_filter (r : ℕ → ℕ → Prop) [DecidableRel r] [IsTotal ℕ r] [IsTrans ℕ r]
    (s : ℕ → ℚ) (L cand : List ℕ) (k : ℕ)
    (hrel : ∀ a b, r a b → s b ≤ s a)
    (hL : L.Nodup) (hcand : cand.Nodup) (hsub : ∀ c ∈ L, c ∈ cand)
    (hpos : ∀ c ∈ cand, (0 < s c ↔ c ∈ L))
    (hval : ∀ (i : ℕ) (hi : i < L.length), s (L.get ⟨i, hi⟩) = 1 / ((i : ℚ) + 1)) :
    ((List.insertionSort r cand).take k).filter (fun c => decide (c ∈ L)) = L.take k := by
  have hperm : (List.insertionSort r cand).Perm cand := List.perm_insertionSort r cand
  have hsort : List.Sorted r (List.insertionSort r cand) := List.sorted_insertionSort r cand
  have hw : List.Pairwise (fun a b => s b ≤ s a) (List.insertionSort r cand) :=
    hsort.imp (fun h => hrel _ _ h)
  obtain ⟨B, hB, hBneg⟩ := sorted_pos_split s (List.insertionSort r cand) hw
  have hfeq : (List.insertionSort r cand).filter (fun c => decide (0 < s c)) =
      (List.insertionSort r cand).filter (fun c => decide (c ∈ L)) := by
    apply List.filter_congr
    intro a ha
    exact decide_eq_decide.2 (hpos a (hperm.subset ha))
  have hFL : (List.insertionSort r cand).filter (fun c => decide (c ∈ L)) = L := by
    apply eq_of_perm_sorted_inj s
    · refine (hperm.filter _).trans ?_
      apply (List.perm_ext_iff_of_nodup (hcand.filter _) hL).2
      intro a
      simp only [List.mem_filter, decide_eq_true_eq]
      exact ⟨fun h => h.2, fun h => ⟨hsub a h, h⟩⟩
    · exact List.Pairwise.sublist (List.filter_sublist _) hw
    · exact List.pairwise_iff_get.2 (fun i j hij => by
        rw [hval i.1 i.2, hval j.1 j.2]
        exact one_div_le_one_div_of_le (by positivity)
          (by have : (i : ℚ) ≤ (j : ℚ) := by exact_mod_cast le_of_lt hij
              linarith))
    · intro a ha b hb heq
      have haL : a ∈ L := by
        rcases List.mem_filter.1 ha with ⟨_, h⟩
        exact of_decide_eq_true h
      have hbL : b ∈ L := by
        rcases List.mem_filter.1 hb with ⟨_, h⟩
        exact of_decide_eq_true h
      obtain ⟨⟨i, hi⟩, ha'⟩ := List.mem_iff_get.1 haL
      obtain ⟨⟨j, hj⟩, hb'⟩ := List.mem_iff_get.1 hbL
      rw [← ha', ← hb', hval i hi, hval j hj] at heq
      have hij : i = j := reciprocal_rank_inj heq
      subst hij
      rw [← ha', ← hb']
  have hBnotin : ∀ b ∈ B, b ∉ L := by
    intro b hb hbL
    have hbsort : b ∈ List.insertionSort r cand := by
      rw [hB]
      exact List.mem_append_right _ hb
    exact hBneg b hb ((hpos b (hperm.subset hbsort)).2 hbL)
  have hLB : List.insertionSort r cand = L ++ B := by
    calc List.insertionSort r cand
        = (List.insertionSort r cand).filter (fun c => decide (0 < s c)) ++ B := hB
      _ = L ++ B := by rw [hfeq, hFL]
  rw [hLB, List.take_append_eq_append_take, List.filter_append]
  have h1 : (L.take k).filter (fun c => decide (c ∈ L)) = L.take k :=
    List.filter_eq_self.2 (fun a ha => decide_eq_true (List.mem_of_mem_take ha))
  have h2 : ((B.take (k - L.length)).filter (fun c => decide (c ∈ L))) = [] :=
    List.filter_eq_nil_iff.2 (fun a ha => by
      simpa using hBnotin a (List.mem_of_mem_take ha))
  rw [h1, h2, List.append_nil]

theorem fuseCandidates_nodup {lexL semL : List ℕ} (h1 : lexL.Nodup) (h2 : semL.Nodup) :
    (fuseCandidates lexL semL).Nodup := by
  rw [fuseCandidates, List.nodup_append]
  refine ⟨h1, h2.filter _, ?_⟩
  intro a ha hafil
  rcases List.mem_filter.1 hafil with ⟨_, hdec⟩
  exact (of_decide_eq_true hdec) ha

theorem mem_fuseCandidates_left {lexL semL : List ℕ} {c : ℕ} (h : c ∈ lexL) :
    c ∈ fuseCandidates lexL semL :=
  List.mem_append_left _ h

theorem mem_fuseCandidates_right {lexL semL : List ℕ} {c : ℕ} (h : c ∈ semL) :
    c ∈ fuseCandidates lexL semL := by
  by_cases hc : c ∈ lexL
  · exact List.mem_append_left _ hc
  · exact List.mem_append_right _ (List.mem_filter.2 ⟨h, decide_eq_true hc⟩)

theorem finalScore_lex_only (lexL semL : List ℕ) (c : ℕ) :
    finalScore (1, 0) lexL semL c = rrfScore lexL c := by
  simp [finalScore]

theorem finalScore_sem_only (lexL semL : List ℕ) (c : ℕ) :
    finalScore (0, 1) lexL semL c = rrfScore semL c := by
  simp [finalScore]

theorem fuseRank_map_fst (w : ℚ × ℚ) (lexL semL : List ℕ) (k : ℕ) :
    (fuseRank w lexL semL k).map Prod.fst =
      (List.insertionSort (fuseRel w lexL semL) (fuseCandidates lexL semL)).take k := by
  unfold fuseRank
  rw [List.map_map]
  exact List.map_id _

/-! ### Claim theorems for the fusion ranker -/

unseal Rat.mul Rat.add Rat.inv Rat.sub Nat.gcd in
/-- C3, counterexample to the claim as stated: with weights (1, 0), a
lexical ranking [0] and a semantic ranking [1], the fused ranking is
[0, 1] — the semantic-only chunk trails with fused score 0 — and not the
lexical-only ranking [0]. -/
theorem fusion_boundary_counterexample :
    (fuseRank (1, 0) [0] [1] 3).map Prod.fst = [0, 1] ∧
    (fuseRank (1, 0) [0] [1] 3).map Prod.fst ≠ [0] := by
  decide

/-- C3, amended: with weights (1, 0) the fused ranking restricted to the
lexically-ranked chunks is exactly the lexical ranking (truncated to the
requested k), and every other fused entry carries final score 0;
symmetrically for weights (0, 1) and the semantic ranking. -/
theorem fusion_boundary_amended (lexL semL : List ℕ) (k : ℕ)
    (hlex : lexL.Nodup) (hsem : semL.Nodup) :
    (((fuseRank (1, 0) lexL semL k).map Prod.fst).filter
        (fun c => decide (c ∈ lexL)) = lexL.take k
      ∧ ∀ p ∈ fuseRank (1, 0) lexL semL k, p.1 ∉ lexL → p.2 = 0)
    ∧ (((fuseRank (0, 1) lexL semL k).map Prod.fst).filter
        (fun c => decide (c ∈ semL)) = semL.take k
      ∧ ∀ p ∈ fuseRank (0, 1) lexL semL k, p.1 ∉ semL → p.2 = 0) := by
  constructor
  · constructor
    · rw [fuseRank_map_fst]
      apply sorted_take_filter (fuseRel (1, 0) lexL semL) (finalScore (1, 0) lexL semL)
      · exact fun a b h => rankRel_le h
      · exact hlex
      · exact fuseCandidates_nodup hlex hsem
      · exact fun c hc => mem_fuseCandidates_left hc
      · intro c _
        rw [finalScore_lex_only]
        exact rrfScore_pos_iff lexL c
      · intro i hi
        rw [finalScore_lex_only]
        exact rrfScore_get lexL hlex i hi
    · intro p hp hnot
      obtain ⟨c, _, rfl⟩ := List.mem_map.1 hp
      rw [show ((c, finalScore (1, 0) lexL semL c) : ℕ × ℚ).2 =
        finalScore (1, 0) lexL semL c from rfl, finalScore_lex_only]
      exact rrfScore_eq_zero hnot
  · constructor
    · rw [fuseRank_map_fst]
      apply sorted_take_filter (fuseRel (0, 1) lexL semL) (finalScore (0, 1) lexL semL)
      · exact fun a b h => rankRel_le h
      · exact hsem
      · exact fuseCandidates_nodup hlex hsem
      · exact fun c hc => mem_fuseCandidates_right hc
      · intro c _
        rw [finalScore_sem_only]
        exact rrfScore_pos_iff semL c
      · intro i hi
        rw [finalScore_sem_only]
        exact rrfScore_get semL hsem i hi
    · intro p hp hnot
      obtain ⟨c, _, rfl⟩ := List.mem_map.1 hp
      rw [show ((c, finalScore (0, 1) lexL semL c) : ℕ × ℚ).2 =
        finalScore (0, 1) lexL semL c from rfl, finalScore_sem_only]
      exact rrfScore_eq_zero hnot

/-- Witness for the amended C3 at a concrete input. -/
theorem fusion_boundary_amended_witness :
    ((fuseRank (1, 0) [5, 7] [7, 9] 3).map Prod.fst).filter
        (fun c => decide (c ∈ ([5, 7] : List ℕ))) = ([5, 7] : List ℕ).take 3 ∧
    ((fuseRank (0, 1) [5, 7] [7, 9] 3).map Prod.fst).filter
        (fun c => decide (c ∈ ([7, 9] : List ℕ))) = ([7, 9] : List ℕ).take 3 :=
  ⟨(fusion_boundary_amended [5, 7] [7, 9] 3 (by decide) (by decide)).1.1,
   (fusion_boundary_amended [5, 7] [7, 9] 3 (by decide) (by decide)).2.1⟩

/-! ### Claim theorems for the BM25 retriever and the fused scores -/

/-- C4: the lexical retriever returns at most k chunks, never returns a
chunk scoring 0 against the query, lists its results by BM25 score
descending with ties broken by original chunk order, returns the top
chunks — every unreturned corpus chunk with nonzero score ranks at or
below every returned chunk — and when it returns fewer than k results
every unreturned chunk of the corpus scores 0.  Stated for an arbitrary
idf weighting, which the claims do not constrain. -/
theorem bm25_query_spec (idf : ℕ → ℕ → ℚ) (corpus : List Doc) (query : Doc) (k : ℕ) :
    (bm25Query idf corpus query k).length ≤ k
  ∧ (∀ i ∈ bm25Query idf corpus query k, bm25ScoreAt idf corpus query i ≠ 0)
  ∧ List.Pairwise (bm25Rel idf corpus query) (bm25Query idf corpus query k)
  ∧ (∀ i, i < corpus.length → i ∉ bm25Query idf corpus query k →
      bm25ScoreAt idf corpus query i ≠ 0 →
      ∀ j ∈ bm25Query idf corpus query k, bm25Rel idf corpus query j i)
  ∧ ((bm25Query idf corpus query k).length < k →
      ∀ i, i < corpus.length → i ∉ bm25Query idf corpus query k →
        bm25ScoreAt idf corpus query i = 0) := by
  refine ⟨?_, ?_, ?_, ?_, ?_⟩
  · simp only [bm25Query, List.length_take]
    omega
  · intro i hi
    rcases List.mem_filter.1 (List.mem_of_mem_take hi) with ⟨_, hdec⟩
    exact of_decide_eq_true hdec
  · exact List.Pairwise.sublist ((List.take_sublist _ _).trans (List.filter_sublist _))
      (List.sorted_insertionSort _ _)
  · intro i hicorp hnot hne j hj
    have hiF : i ∈ (List.insertionSort (bm25Rel idf corpus query)
        (List.range corpus.length)).filter
          (fun m => decide (bm25ScoreAt idf corpus query m ≠ 0)) :=
      List.mem_filter.2
        ⟨(List.mem_insertionSort _).2 (List.mem_range.2 hicorp), decide_eq_true hne⟩
    have hF : List.Pairwise (bm25Rel idf corpus query)
        ((List.insertionSort (bm25Rel idf corpus query)
          (List.range corpus.length)).filter
            (fun m => decide (bm25ScoreAt idf corpus query m ≠ 0))) :=
      List.Pairwise.sublist (List.filter_sublist _) (List.sorted_insertionSort _ _)
    rw [← List.take_append_drop k ((List.insertionSort (bm25Rel idf corpus query)
      (List.range corpus.length)).filter
        (fun m => decide (bm25ScoreAt idf corpus query m ≠ 0)))] at hF hiF
    have hidrop : i ∈ ((List.insertionSort (bm25Rel idf corpus query)
        (List.range corpus.length)).filter
          (fun m => decide (bm25ScoreAt idf corpus query m ≠ 0))).drop k := by
      rcases List.mem_append.1 hiF with h | h
      · exact absurd h hnot
      · exact h
    exact (List.pairwise_append.1 hF).2.2 j hj i hidrop
  · intro hlen i hicorp hnot
    by_contra hne
    have hlen2 : ((List.insertionSort (bm25Rel idf corpus query)
        (List.range corpus.length)).filter
          (fun j => decide (bm25ScoreAt idf corpus query j ≠ 0))).length < k := by
      unfold bm25Query at hlen
      rw [List.length_take] at hlen
      omega
    have htake : bm25Query idf corpus query k =
        (List.insertionSort (bm25Rel idf corpus query) (List.range corpus.length)).filter
          (fun j => decide (bm25ScoreAt idf corpus query j ≠ 0)) := by
      unfold bm25Query
      exact List.take_of_length_le (le_of_lt hlen2)
    apply hnot
    rw [htake]
    exact List.mem_filter.2
      ⟨(List.mem_insertionSort _).2 (List.mem_range.2 hicorp), decide_eq_true hne⟩

unseal Rat.mul Rat.add Rat.inv Rat.sub Nat.gcd in
/-- Witness for C4 at concrete inputs: the spec scenario corpus reduced to
its query terms — the query "cat" matches chunk 0 and not chunk 1, and only
chunk 0 is returned — and, for the maximality part, a corpus of two
nonzero-scoring chunks with k = 1, where the unreturned chunk 0 ranks
below the returned chunk 1. -/
theorem bm25_query_spec_witness :
    bm25Query (fun _ _ => 1) [['c', 'a', 't'], ['d', 'o', 'g']] ['c', 'a', 't'] 3 = [0] ∧
    (bm25Query (fun _ _ => 1) [['c', 'a', 't'], ['d', 'o', 'g']] ['c', 'a', 't'] 3).length ≤ 3 ∧
    bm25ScoreAt (fun _ _ => 1) [['c', 'a', 't'], ['d', 'o', 'g']] ['c', 'a', 't'] 1 = 0 ∧
    bm25Query (fun _ _ => 1) [['c', 'a', 't'], ['c', 'a', 't', ' ', 'c', 'a', 't']]
      ['c', 'a', 't'] 1 = [1] ∧
    bm25Rel (fun _ _ => 1) [['c', 'a', 't'], ['c', 'a', 't', ' ', 'c', 'a', 't']]
      ['c', 'a', 't'] 1 0 :=
  ⟨by decide, (bm25_query_spec (fun _ _ => 1) [['c', 'a', 't'], ['d', 'o', 'g']]
      ['c', 'a', 't'] 3).1,
   (bm25_query_spec (fun _ _ => 1) [['c', 'a', 't'], ['d', 'o', 'g']] ['c', 'a', 't'] 3).2.2.2.2
     (by decide) 1 (by decide) (by decide),
   by decide,
   (bm25_query_spec (fun _ _ => 1) [['c', 'a', 't'], ['c', 'a', 't', ' ', 'c', 'a', 't']]
      ['c', 'a', 't'] 1).2.2.2.1 0 (by decide) (by decide) (by decide) 1 (by decide)⟩

/-- C1: every fused result carries the score
`lexicalWeight * rrf_lexical + semanticWeight * rrf_semantic`, a chunk
absent from a list contributes 0 for that term, the fused list is sorted by
final score descending, and the default ensemble weights are (0.3, 0.7). -/
theorem fused_score_formula (w : ℚ × ℚ) (lexL semL : List ℕ) (k : ℕ) :
    (∀ p ∈ fuseRank w lexL semL k,
        p.2 = w.1 * rrfScore lexL p.1 + w.2 * rrfScore semL p.1)
  ∧ (∀ c, c ∉ lexL → rrfScore lexL c = 0)
  ∧ (∀ c, c ∉ semL → rrfScore semL c = 0)
  ∧ List.Pairwise (fun p q : ℕ × ℚ => q.2 ≤ p.2) (fuseRank w lexL semL k)
  ∧ ensembleWeights = (3 / 10, 7 / 10) := by
  refine ⟨?_, fun c hc => rrfScore_eq_zero hc, fun c hc => rrfScore_eq_zero hc, ?_, rfl⟩
  · intro p hp
    obtain ⟨c, _, rfl⟩ := List.mem_map.1 hp
    rfl
  · unfold fuseRank
    rw [List.pairwise_map]
    refine List.Pairwise.sublist (List.take_sublist _ _) ?_
    have hs := List.sorted_insertionSort (fuseRel w lexL semL) (fuseCandidates lexL semL)
    exact hs.imp (fun h => rankRel_le h)

unseal Rat.mul Rat.add Rat.inv Rat.sub Nat.gcd in
/-- Witness for C1 at a concrete input (including the evaluated fused
scores under the default weights). -/
theorem fused_score_formula_witness :
    (fuseRank ensembleWeights [0, 1] [1, 2] 3).map Prod.snd = [17 / 20, 7 / 20, 3 / 10] ∧
    rrfScore [0, 1] 5 = 0 ∧
    List.Pairwise (fun p q : ℕ × ℚ => q.2 ≤ p.2) (fuseRank ensembleWeights [0, 1] [1, 2] 3) :=
  ⟨by decide, (fused_score_formula ensembleWeights [0, 1] [1, 2] 3).2.1 5 (by decide),
   (fused_score_formula ensembleWeights [0, 1] [1, 2] 3).2.2.2.1⟩
